import Mathlib

/-!
Verification development for the event-text preprocessing core of the
`ourportfolios_scheduler` repository (`src/preprocessing/preprocess_texts.py`).

Strings are modelled as `List Char` (Python `str` over its code points).
Python library primitives (`str.strip`, `str.splitlines`, `str.split('\n')`,
substring membership `in`, `str.upper`, `str.replace(x, "")`) are embedded as
executable functions below.  The regular-expression searches used by the code
are embedded pattern-by-pattern: every pattern in the source starts with a
literal anchor, so `re.search` semantics (leftmost match, lazy/greedy groups)
reduce to a scan over candidate start positions; each embedding is derived
from the concrete pattern and documented at its definition.  The entries the
regexes run on are single segmented blocks, which never contain a newline, so
`.` (which does not match `'\n'` in Python) matches any character there.

Whitespace is modelled by the ASCII whitespace set shared by Python's
`str.strip` and the regex class `\s` on the characters that can actually
occur here; `str.upper` is modelled on ASCII letters.  Numeric code
(`float`, `:.2f` formatting) is modelled over `ℚ` with round-half-to-even
formatting; every theorem below that evaluates it does so on inputs whose
Python `float` images are exact, so the model and CPython agree there.
-/

set_option maxRecDepth 20000

/-- ASCII whitespace, the common core of Python's `str.strip` set and the
regex class `\s` (space, tab, newline, carriage return, vertical tab,
form feed). -/
def isWS (c : Char) : Bool :=
  c = ' ' || c = '\t' || c = '\n' || c = '\r' || c = '\x0b' || c = '\x0c'

/-- Python `str.strip()`: drop leading and trailing whitespace. -/
def pyStrip (s : List Char) : List Char :=
  ((s.dropWhile isWS).reverse.dropWhile isWS).reverse

/-- Python substring test `needle in hay`. -/
def containsSub (needle : List Char) : List Char → Bool
  | [] => needle.isPrefixOf ([] : List Char)
  | c :: t => needle.isPrefixOf (c :: t) || containsSub needle t

/-- ASCII upper-casing of one character (Python `str.upper` restricted to
the ASCII letters, the only cased characters exercised here). -/
def upChar : Char → Char
  | 'a' => 'A' | 'b' => 'B' | 'c' => 'C' | 'd' => 'D' | 'e' => 'E'
  | 'f' => 'F' | 'g' => 'G' | 'h' => 'H' | 'i' => 'I' | 'j' => 'J'
  | 'k' => 'K' | 'l' => 'L' | 'm' => 'M' | 'n' => 'N' | 'o' => 'O'
  | 'p' => 'P' | 'q' => 'Q' | 'r' => 'R' | 's' => 'S' | 't' => 'T'
  | 'u' => 'U' | 'v' => 'V' | 'w' => 'W' | 'x' => 'X' | 'y' => 'Y'
  | 'z' => 'Z' | c => c

/-- Python `str.upper()` (ASCII model). -/
def pyUpper (s : List Char) : List Char := s.map upChar

/-- Python `str.split('\n')`: split at every newline, keeping empty pieces;
the empty string yields one empty piece. -/
def splitOnNl : List Char → List (List Char)
  | [] => [[]]
  | c :: t =>
    if c = '\n' then [] :: splitOnNl t
    else
      match splitOnNl t with
      | [] => [[c]]
      | h :: r => (c :: h) :: r

/-- Normalise the line terminators `"\r\n"` and `"\r"` to `'\n'`
(first step of the `str.splitlines` model). -/
def normNl : List Char → List Char
  | [] => []
  | c :: t =>
    if c = '\r' then
      match t with
      | [] => ['\n']
      | c2 :: t2 => if c2 = '\n' then '\n' :: normNl t2 else '\n' :: normNl (c2 :: t2)
    else c :: normNl t

/-- Python `str.splitlines()` for the terminators `'\n'`, `'\r'`, `"\r\n"`
(the ones that occur in this data): split at every terminator and drop the
final empty piece left by a trailing terminator, so that `""` gives `[]`
and `"a\n"` gives `["a"]`. -/
def pySplitlines (s : List Char) : List (List Char) :=
  if (splitOnNl (normNl s)).getLast? = some ([] : List Char) then
    (splitOnNl (normNl s)).dropLast
  else splitOnNl (normNl s)

/-- Python `"\n".join(...)`. -/
def joinNl : List (List Char) → List Char
  | [] => []
  | [s] => s
  | s :: rest => s ++ '\n' :: joinNl rest

/-- The anchor phrase tested by the classifier
(`"Name of person/ corporation that conducts the transfer:" in event_desc`,
preprocess_texts.py line 108). -/
def anchorPhrase : List Char :=
  ("Name of person/ corporation that conducts the transfer:").data

/-- The block-skip marker (`"Financial Statement" in entry`, line 45). -/
def finStmt : List Char := ("Financial Statement").data

/-- The literal part of the segmentation pattern
`^\s*- Name of person/ corporation that conducts the transfer:` (line 34). -/
def anchorLinePat : List Char :=
  ("- Name of person/ corporation that conducts the transfer:").data

/-- The test `re.match(r'^\s*- Name of person/ corporation that conducts the transfer:', line)`:
optional leading whitespace, then the literal anchor as a prefix. -/
def anchorLineMatch (l : List Char) : Bool :=
  anchorLinePat.isPrefixOf (l.dropWhile isWS)

/-- The line-accumulation loop of `preprocess_events_texts` (lines 32-40):
one buffer, flushed (stripped) whenever an anchor line arrives with a
non-empty buffer, every line appended as `" " + line.strip()`, with a final
flush of a non-empty buffer. -/
def segLoop : List (List Char) → List Char → List (List Char)
  | [], buf => if buf = [] then [] else [pyStrip buf]
  | l :: ls, buf =>
    if anchorLineMatch l = true ∧ buf ≠ [] then
      pyStrip buf :: segLoop ls ([] ++ ' ' :: pyStrip l)
    else
      segLoop ls (buf ++ ' ' :: pyStrip l)

/-- The block list `summaries` of `preprocess_events_texts` (lines 29-40):
`text.strip().splitlines()` folded through the buffer loop. -/
def segBlocks (text : List Char) : List (List Char) :=
  segLoop (pySplitlines (pyStrip text)) []

/-! ### Field extraction (the inner `get` of `preprocess_events_texts`)

`get(pattern)` is `re.search(pattern, entry)` followed by
`match.group(1).strip() if match else ""`.  Every pattern used starts with
a literal anchor, so the leftmost-match search reduces to trying each
position of `entry` in order and testing the pattern there; each `scan...`
function below does exactly that for one pattern shape.  `entry` is always
a segmented block, hence newline-free, so Python's `.` matches any of its
characters. -/

/-- Pattern shape `anchor\s*(.*?)\s*-` (the `name`, `position` and
transaction-type fields, lines 52-54).  At a given start the match
succeeds iff the anchor is a prefix and a `'-'` occurs after it; the
group, after `.strip()`, is the stripped text strictly between the anchor
and the first subsequent `'-'` (the greedy `\s*`s and the lazy group only
move whitespace across the group boundaries, which `.strip()` erases). -/
def dashAfter (rest : List Char) : Option (List Char) :=
  if rest.any (fun x => x = '-') then some (pyStrip (rest.takeWhile (fun x => x ≠ '-')))
  else none

def scanDash (a : List Char) : List Char → Option (List Char)
  | [] => none
  | c :: t =>
    if a.isPrefixOf (c :: t) then
      match dashAfter ((c :: t).drop a.length) with
      | some g => some g
      | none => scanDash a t
    else scanDash a t

/-- The `get` of a `anchor\s*(.*?)\s*-` pattern. -/
def getDash (a : List Char) (entry : List Char) : List Char :=
  (scanDash a entry).getD []

/-- The literal `"shares"` closing the share-count patterns. -/
def sharesLit : List Char := ("shares").data

/-- Pattern shape `anchor\s*([cls]+)\s*shares` with `cls` a character class
disjoint from whitespace (the four share-count fields, lines 57-65).
At a given start: anchor prefix, then the maximal whitespace run, then a
non-empty maximal run of class characters, then the maximal whitespace
run, then the literal `shares`; no other backtracking alternative can
succeed because the class, whitespace and `'s'` are pairwise disjoint.
The group is the class run. -/
def runAt (cls : Char → Bool) (r1 : List Char) : Option (List Char) :=
  if r1.takeWhile cls ≠ [] ∧
      sharesLit.isPrefixOf ((r1.drop (r1.takeWhile cls).length).dropWhile isWS) then
    some (pyStrip (r1.takeWhile cls))
  else none

def scanRun (a : List Char) (cls : Char → Bool) : List Char → Option (List Char)
  | [] => none
  | c :: t =>
    if a.isPrefixOf (c :: t) then
      match runAt cls (((c :: t).drop a.length).dropWhile isWS) with
      | some g => some g
      | none => scanRun a cls t
    else scanRun a cls t

/-- The `get` of a share-count pattern. -/
def getRun (a : List Char) (cls : Char → Bool) (entry : List Char) : List Char :=
  (scanRun a cls entry).getD []

/-- The class `[\d,]` of lines 57, 61 and 64. -/
def isDigitComma (c : Char) : Bool := c.isDigit || c = ','

/-- The class `[-\d,]` of line 63. -/
def isSignDigitComma (c : Char) : Bool := c = '-' || c.isDigit || c = ','

/-- Tail of the percentage patterns: the lazy `.*?([\d.]+%)` finds the first
position from which a maximal `[\d.]` run is immediately followed by `'%'`
(a shorter-than-maximal run is followed by a class character, not `'%'`);
the group is that run together with the `'%'`. -/
def pctAt (s : List Char) : Option (List Char) :=
  if ((s.drop (s.takeWhile (fun x => x.isDigit || x = '.')).length).head? = some '%') then
    some ((s.takeWhile (fun x => x.isDigit || x = '.')) ++ ['%'])
  else none

def pctFrom : List Char → Option (List Char)
  | [] => none
  | c :: t =>
    if c.isDigit || c = '.' then
      match pctAt (c :: t) with
      | some g => some g
      | none => pctFrom t
    else pctFrom t

/-- Pattern shape `anchor.*?([\d.]+%)` (the two percentage fields,
lines 59 and 66). -/
def scanPct (a : List Char) : List Char → Option (List Char)
  | [] => none
  | c :: t =>
    if a.isPrefixOf (c :: t) then
      match pctFrom ((c :: t).drop a.length) with
      | some g => some g
      | none => scanPct a t
    else scanPct a t

/-- The `get` of a percentage pattern. -/
def getPct (a : List Char) (entry : List Char) : List Char :=
  (scanPct a entry).getD []

/-- Does the list start with `\d{4}-\d{2}-\d{2}`?  The counted repetitions
admit no backtracking, so this is an exact ten-character shape test. -/
def dateOk (l : List Char) : Bool :=
  match l with
  | y1 :: y2 :: y3 :: y4 :: c1 :: m1 :: m2 :: c2 :: d1 :: d2 :: _ =>
    y1.isDigit && y2.isDigit && y3.isDigit && y4.isDigit && c1 = '-' &&
      m1.isDigit && m2.isDigit && c2 = '-' && d1.isDigit && d2.isDigit
  | _ => false

/-- The matched date, i.e. the first ten characters when `dateOk` holds. -/
def dateShape (l : List Char) : Option (List Char) :=
  if dateOk l then some (l.take 10) else none

/-- The literal `"Exec:"`, anchor of the execution-date pattern. -/
def execLit : List Char := ("Exec:").data

/-- Pattern `Exec:\s*(\d{4}-\d{2}-\d{2})` (line 67): anchor, maximal
whitespace run (shorter runs would put `\d` on a whitespace character),
then the date shape. -/
def scanExec : List Char → Option (List Char)
  | [] => none
  | c :: t =>
    if execLit.isPrefixOf (c :: t) then
      match dateShape (((c :: t).drop execLit.length).dropWhile isWS) with
      | some d => some d
      | none => scanExec t
    else scanExec t

/-- The `get` of the execution-date pattern. -/
def getExec (entry : List Char) : List Char := (scanExec entry).getD []

/-- The literal `"on "`, anchor of the orchestrator's date-recovery pattern. -/
def onLit : List Char := ("on ").data

/-- The search `re.search(r'on (\d{4}-\d{2}-\d{2})', summary)` of
`process_events_for_display` (line 117): the literal `"on "` followed by
the date shape, leftmost occurrence. -/
def searchOnDate : List Char → Option (List Char)
  | [] => none
  | c :: t =>
    if onLit.isPrefixOf (c :: t) then
      match dateShape ((c :: t).drop onLit.length) with
      | some d => some d
      | none => searchOnDate t
    else searchOnDate t

/-- Python `str.replace(",", "")`. -/
def removeCommas (s : List Char) : List Char := s.filter (fun c => c ≠ ',')

/-- Python `str.replace('%', '')`. -/
def removePct (s : List Char) : List Char := s.filter (fun c => c ≠ '%')

/-! ### Numeric model (`float`, `:+.2f`, `:.2f`)

The strings fed to `float` here are comma-stripped `[\d,]+` runs (hence
digit strings) and `%`-stripped `[\d.]+` runs (digits and dots), so the
`float` acceptance test reduces to: non-empty, at most one dot, at least
one digit.  Values are modelled exactly in `ℚ`; `%.2f` formatting rounds
half-to-even, as CPython does on the exactly representable values at which
the theorems below evaluate this model. -/

/-- One decimal digit as a character (only ever applied to `0..9`). -/
def digitChar : Nat → Char
  | 0 => '0' | 1 => '1' | 2 => '2' | 3 => '3' | 4 => '4'
  | 5 => '5' | 6 => '6' | 7 => '7' | 8 => '8' | _ => '9'

/-- Decimal digits of a natural number, fuel-driven accumulator loop. -/
def natDigitsAux : Nat → Nat → List Char → List Char
  | 0, _, acc => acc
  | fuel + 1, n, acc =>
    if n < 10 then digitChar n :: acc
    else natDigitsAux fuel (n / 10) (digitChar (n % 10) :: acc)

/-- Decimal digits of a natural number. -/
def natDigits (n : Nat) : List Char := natDigitsAux (n + 1) n []

/-- Two-digit zero-padded rendering of `0..99`. -/
def pad2 (m : Nat) : List Char := if m < 10 then '0' :: natDigits m else natDigits m

/-- An exact rational value, numerator over a positive denominator, kept
unreduced.  This stands in for the Python `float` values flowing through
the metric computation: every theorem below evaluates the metrics only at
inputs where CPython's binary `float` arithmetic is exact, so exact
rational arithmetic agrees with it there. -/
structure Frac where
  num : Int
  den : Int
deriving DecidableEq

/-- Subtraction `a - b` on fractions. -/
def fsub (a b : Frac) : Frac :=
  ⟨a.num * b.den - b.num * a.den, a.den * b.den⟩

/-- Division `a / b` on fractions (the sign moves to the numerator so the
denominator stays positive; callers guard the `b.num = 0` case, which in
Python raises `ZeroDivisionError`). -/
def fdivF (a b : Frac) : Frac :=
  if b.num < 0 then ⟨-(a.num * b.den), a.den * -b.num⟩
  else ⟨a.num * b.den, a.den * b.num⟩

/-- Scaling `x * 100` on fractions. -/
def fmul100 (x : Frac) : Frac := ⟨x.num * 100, x.den⟩

/-- Round half to even to the nearest integer (what CPython's `%.2f` does
to the scaled value). -/
def rhe (x : Frac) : Int :=
  let f := x.num.fdiv x.den
  let r2 := 2 * (x.num - f * x.den)
  if r2 < x.den then f
  else if x.den < r2 then f + 1
  else if f % 2 = 0 then f else f + 1

/-- Formatting `f"{x:.2f}"`: two-decimal fixed-point rendering. -/
def fmt2 (x : Frac) : List Char :=
  let n := (rhe (fmul100 x)).natAbs
  (if x.num < 0 then ['-'] else []) ++ natDigits (n / 100) ++ '.' :: pad2 (n % 100)

/-- Formatting `f"{x:+.2f}"`: as `fmt2` but with a mandatory sign. -/
def fmtSigned2 (x : Frac) : List Char :=
  let n := (rhe (fmul100 x)).natAbs
  (if x.num < 0 then ['-'] else ['+']) ++ natDigits (n / 100) ++ '.' :: pad2 (n % 100)

/-- Value of a digit string. -/
def natOfDigits (s : List Char) : Nat :=
  s.foldl (fun a c => a * 10 + (c.toNat - 48)) 0

/-- Value of a `digits[.digits]` string. -/
def ratOfNumeric (s : List Char) : Frac :=
  let ip := s.takeWhile (fun c => c ≠ '.')
  let fp := (s.dropWhile (fun c => c ≠ '.')).drop 1
  ⟨(natOfDigits ip * 10 ^ fp.length + natOfDigits fp : Nat), (10 ^ fp.length : Nat)⟩

/-- Python `float(s)` on the digit/dot strings produced by the extractors:
`some` value exactly when CPython's `float` accepts (non-empty, at most one
dot, at least one digit), `none` when it raises `ValueError`. -/
def pyFloat (s : List Char) : Option Frac :=
  if s ≠ [] ∧ s.all (fun c => c.isDigit || c = '.') ∧
      s.count '.' ≤ 1 ∧ s.any Char.isDigit then
    some (ratOfNumeric s)
  else none

/-! ### Per-block extraction, metrics and the summary template
(`preprocess_events_texts`, lines 44-94) -/

/-- The anchor `"transfer:"` of the `name` pattern (line 52). -/
def transferLit : List Char := ("transfer:").data

/-- The anchor `"Current position:"` (line 53). -/
def positionLit : List Char := ("Current position:").data

/-- The anchor `"Type of transaction registered:"` (line 54). -/
def typeLit : List Char := ("Type of transaction registered:").data

/-- The anchor `"before the transaction:"` (lines 57 and 59). -/
def beforeLit : List Char := ("before the transaction:").data

/-- The anchor `"Number of shares registered:"` (line 60). -/
def registeredLit : List Char := ("Number of shares registered:").data

/-- The anchor `"Acquired shares:"` (line 62). -/
def acquiredLit : List Char := ("Acquired shares:").data

/-- The anchor `"after the transaction:"` (lines 64 and 66). -/
def afterLit : List Char := ("after the transaction:").data

/-- The ten fields extracted from one block (lines 52-67). -/
structure TransactionRecord where
  name : List Char
  position : List Char
  transaction_type : List Char
  shares_before : List Char
  percent_before : List Char
  shares_registered : List Char
  acquired_shares : List Char
  shares_after : List Char
  percent_after : List Char
  exec_date : List Char
deriving DecidableEq

/-- The field extraction of lines 52-67: each field is one independent
`get` on `entry`. -/
def extractFields (entry : List Char) : TransactionRecord where
  name := getDash transferLit entry
  position := getDash positionLit entry
  transaction_type := getDash typeLit entry
  shares_before := removeCommas (getRun beforeLit isDigitComma entry)
  percent_before := getPct beforeLit entry
  shares_registered := removeCommas (getRun registeredLit isDigitComma entry)
  acquired_shares := removeCommas (getRun acquiredLit isSignDigitComma entry)
  shares_after := removeCommas (getRun afterLit isDigitComma entry)
  percent_after := getPct afterLit entry
  exec_date := getExec entry

/-- Lines 70-76: `pct_diff_str`.  Both percentage fields are `%`-stripped
and fed to `float`; on success the difference is formatted `:+.2f`, on a
`ValueError` the suffix is empty. -/
def pctDiffStr (r : TransactionRecord) : List Char :=
  match pyFloat (removePct r.percent_before), pyFloat (removePct r.percent_after) with
  | some b, some a => (" (").data ++ fmtSigned2 (fsub a b) ++ ("% change)").data
  | _, _ => []

/-- Lines 79-84: `registered_pct_str`.  Both share counts are fed to
`float`; a `ValueError` or the `ZeroDivisionError` raised when
`shares_before` is zero leaves the suffix empty, otherwise the ratio times
100 is formatted `:.2f`. -/
def registeredPctStr (r : TransactionRecord) : List Char :=
  match pyFloat r.shares_registered, pyFloat r.shares_before with
  | some rg, some b =>
    if b.num = 0 then []
    else (" (").data ++ fmt2 (fmul100 (fdivF rg b)) ++ ("% of initial)").data
  | _, _ => []

/-- The summary template of lines 86-90, substituted verbatim. -/
def renderRecord (r : TransactionRecord) : List Char :=
  r.name ++ (" (").data ++ r.position ++ (") executed ").data ++
    pyUpper r.transaction_type ++ (" ").data ++ r.shares_registered ++
    (" shares").data ++ registeredPctStr r ++ (" on ").data ++ r.exec_date ++
    (" from ").data ++ r.shares_before ++ (" shares (").data ++
    r.percent_before ++ (") to ").data ++ r.shares_after ++
    (" shares (").data ++ r.percent_after ++ ("). Acquired: ").data ++
    r.acquired_shares ++ (" shares").data ++ pctDiffStr r ++ (".").data

/-- One loop body of lines 44-92: extract the fields of a block and render
the template. -/
def renderEntry (entry : List Char) : List Char :=
  renderRecord (extractFields entry)

/-- The function `preprocess_events_texts` (lines 28-94): segment, drop the blocks
containing `"Financial Statement"`, render each remaining block, join the
summaries with newlines. -/
def preprocess_events_texts (text : List Char) : List Char :=
  joinNl (((segBlocks text).filter (fun e => ! containsSub finStmt e)).map renderEntry)

/-! ### The orchestrator (`process_events_for_display`, lines 97-128) -/

/-- A raw event record.  The three fields the code reads and writes are
explicit (a key absent from the dict is modelled as the empty string,
which is the `event.get(..., "")` default and is what every code path
observes); every other key of the record sits untouched in `extra`. -/
structure Event (α : Type) where
  event_desc : List Char
  notify_date : List Char
  exer_date : List Char
  extra : α
deriving DecidableEq

/-- Line 110: `f"{event_desc} Notify: {notify_date}, Exec: {exer_date}"`. -/
def enhance (e : Event α) : List Char :=
  e.event_desc ++ (" Notify: ").data ++ e.notify_date ++ (", Exec: ").data ++ e.exer_date

/-- Line 113: the non-empty stripped lines of the preprocessed summary
text. -/
def summaryLinesOf (e : Event α) : List (List Char) :=
  ((splitOnNl (preprocess_events_texts (enhance e))).map pyStrip).filter
    (fun l => l ≠ [])

/-- The per-event body of `process_events_for_display` (lines 104-126):
passthrough when the anchor phrase is absent; otherwise rewrite
`event_desc` to the first usable summary line (falling back to the
original description), recover `exer_date` from the chosen summary when
the `on YYYY-MM-DD` pattern matches, and clear `notify_date`. -/
def processOne (e : Event α) : Event α :=
  if containsSub anchorPhrase e.event_desc then
    let summary := (summaryLinesOf e).headD e.event_desc
    { e with
      event_desc := summary
      exer_date := (searchOnDate summary).getD e.exer_date
      notify_date := [] }
  else e

/-- The function `process_events_for_display` (lines 97-128): the accumulating loop over
the input list. -/
def process_events_for_display (events : List (Event α)) : List (Event α) :=
  events.foldl (fun acc e => acc ++ [processOne e]) []

/-! ### Basic lemmas about the orchestrator loop -/

theorem foldlAppendMap (f : β → γ) :
    ∀ (l : List β) (acc : List γ),
      l.foldl (fun a e => a ++ [f e]) acc = acc ++ l.map f
  | [], acc => by simp
  | e :: l, acc => by
    simp [List.foldl_cons, foldlAppendMap f l]

theorem pefd_eq_map (es : List (Event α)) :
    process_events_for_display es = es.map processOne := by
  simpa using foldlAppendMap processOne es []

theorem pefd_length (es : List (Event α)) :
    (process_events_for_display es).length = es.length := by
  rw [pefd_eq_map]; simp

theorem processOne_not_anchor (e : Event α)
    (h : containsSub anchorPhrase e.event_desc = false) : processOne e = e := by
  simp [processOne, h]

theorem processOne_extra (e : Event α) : (processOne e).extra = e.extra := by
  unfold processOne; split <;> rfl

/-! ### The scans fail when their anchor never occurs -/

theorem scanDash_eq_none (a : List Char) :
    ∀ l : List Char, containsSub a l = false → scanDash a l = none := by
  intro l
  induction l with
  | nil => intro _; rfl
  | cons c t ih =>
    intro h
    simp only [containsSub, Bool.or_eq_false_iff] at h
    simp [scanDash, h.1, ih h.2]

theorem scanRun_eq_none (a : List Char) (cls : Char → Bool) :
    ∀ l : List Char, containsSub a l = false → scanRun a cls l = none := by
  intro l
  induction l with
  | nil => intro _; rfl
  | cons c t ih =>
    intro h
    simp only [containsSub, Bool.or_eq_false_iff] at h
    simp [scanRun, h.1, ih h.2]

theorem scanPct_eq_none (a : List Char) :
    ∀ l : List Char, containsSub a l = false → scanPct a l = none := by
  intro l
  induction l with
  | nil => intro _; rfl
  | cons c t ih =>
    intro h
    simp only [containsSub, Bool.or_eq_false_iff] at h
    simp [scanPct, h.1, ih h.2]

theorem scanExec_eq_none :
    ∀ l : List Char, containsSub execLit l = false → scanExec l = none := by
  intro l
  induction l with
  | nil => intro _; rfl
  | cons c t ih =>
    intro h
    simp only [containsSub, Bool.or_eq_false_iff] at h
    simp [scanExec, h.1, ih h.2]

/-- C1: for every input list, `process_events_for_display` returns a list
of the same length, in the same order, whose i-th element is obtained from
the i-th input record by the per-event body `processOne`; no record is
dropped or duplicated. -/
theorem c1_length_and_order (α : Type) (es : List (Event α)) :
    (process_events_for_display es).length = es.length ∧
      ∀ i : Nat, (process_events_for_display es)[i]? = (es[i]?).map processOne := by
  exact ⟨pefd_length es, fun i => by rw [pefd_eq_map]; simp⟩

/-- C2: a record whose description lacks the anchor phrase is passed
through byte-identical (all fields, the untouched key bag included). -/
theorem c2_passthrough_unchanged (α : Type) (es : List (Event α)) (i : Nat)
    (e : Event α) (hi : es[i]? = some e)
    (h : containsSub anchorPhrase e.event_desc = false) :
    (process_events_for_display es)[i]? = some e := by
  rw [pefd_eq_map]
  simp [hi, processOne_not_anchor e h]

def eC2 : Event Unit := ⟨("hello world").data, ("n").data, ("d").data, ()⟩

theorem c2_witness : (process_events_for_display [eC2])[0]? = some eC2 :=
  c2_passthrough_unchanged Unit [eC2] 0 eC2 (by rfl) (by decide)

/-- C6: no key other than `event_desc`, `exer_date`, `notify_date` is ever
mutated: the untouched key bag of the i-th output record equals that of
the i-th input record. -/
theorem c6_frame (α : Type) (es : List (Event α)) (i : Nat) :
    ((process_events_for_display es)[i]?).map Event.extra =
      (es[i]?).map Event.extra := by
  rw [pefd_eq_map]
  have hco : (Event.extra ∘ processOne) = (Event.extra : Event α → α) := by
    funext e; exact processOne_extra e
  simp [Option.map_map, hco]

/-- C4: processing is a total function preserving the list length (the
embedding of the core raises nothing), and each per-field search
independently yields the empty string when its anchor phrase is absent,
whatever the other fields do; each extracted field is a function of the
entry through its own pattern alone. -/
theorem c4_total_and_tolerant (α : Type) (es : List (Event α)) (entry : List Char) :
    (process_events_for_display es).length = es.length ∧
    (containsSub transferLit entry = false → (extractFields entry).name = []) ∧
    (containsSub positionLit entry = false → (extractFields entry).position = []) ∧
    (containsSub typeLit entry = false → (extractFields entry).transaction_type = []) ∧
    (containsSub beforeLit entry = false →
      (extractFields entry).shares_before = [] ∧
        (extractFields entry).percent_before = []) ∧
    (containsSub registeredLit entry = false →
      (extractFields entry).shares_registered = []) ∧
    (containsSub acquiredLit entry = false →
      (extractFields entry).acquired_shares = []) ∧
    (containsSub afterLit entry = false →
      (extractFields entry).shares_after = [] ∧
        (extractFields entry).percent_after = []) ∧
    (containsSub execLit entry = false → (extractFields entry).exec_date = []) := by
  refine ⟨pefd_length es, ?_, ?_, ?_, ?_, ?_, ?_, ?_, ?_⟩
  · intro h; simp [extractFields, getDash, scanDash_eq_none _ _ h]
  · intro h; simp [extractFields, getDash, scanDash_eq_none _ _ h]
  · intro h; simp [extractFields, getDash, scanDash_eq_none _ _ h]
  · intro h
    constructor
    · simp [extractFields, getRun, removeCommas, scanRun_eq_none _ _ _ h]
    · simp [extractFields, getPct, scanPct_eq_none _ _ h]
  · intro h; simp [extractFields, getRun, removeCommas, scanRun_eq_none _ _ _ h]
  · intro h; simp [extractFields, getRun, removeCommas, scanRun_eq_none _ _ _ h]
  · intro h
    constructor
    · simp [extractFields, getRun, removeCommas, scanRun_eq_none _ _ _ h]
    · simp [extractFields, getPct, scanPct_eq_none _ _ h]
  · intro h; simp [extractFields, getExec, scanExec_eq_none _ h]

def eC4 : Event Unit := ⟨("a").data, [], [], ()⟩

theorem c4_witness :
    (process_events_for_display [eC4]).length = 1 ∧
    (extractFields ('q' :: [])).name = [] ∧
    (extractFields ('q' :: [])).position = [] ∧
    (extractFields ('q' :: [])).transaction_type = [] ∧
    ((extractFields ('q' :: [])).shares_before = [] ∧
      (extractFields ('q' :: [])).percent_before = []) ∧
    (extractFields ('q' :: [])).shares_registered = [] ∧
    (extractFields ('q' :: [])).acquired_shares = [] ∧
    ((extractFields ('q' :: [])).shares_after = [] ∧
      (extractFields ('q' :: [])).percent_after = []) ∧
    (extractFields ('q' :: [])).exec_date = [] := by
  have h := c4_total_and_tolerant Unit [eC4] ('q' :: [])
  exact ⟨h.1, h.2.1 (by decide), h.2.2.1 (by decide), h.2.2.2.1 (by decide),
    h.2.2.2.2.1 (by decide), h.2.2.2.2.2.1 (by decide), h.2.2.2.2.2.2.1 (by decide),
    h.2.2.2.2.2.2.2.1 (by decide), h.2.2.2.2.2.2.2.2 (by decide)⟩

/-! ### C3: the worked example of the specification -/

/-- The input record of the specification's Example 1. -/
def e3 : Event Unit :=
  ⟨("- Name of person/ corporation that conducts the transfer: John Doe - Current position: CEO - Type of transaction registered: buy - Number of shares registered: 1,000 shares - Acquired shares: 500 shares - before the transaction: 2,000 shares (5.00%) - after the transaction: 2,500 shares (7.50%)").data,
    [], ("2024-01-01").data, ()⟩

/-- The summary text the claim expects, with thousands separators. -/
def c3claimStr : List Char :=
  ("John Doe (CEO) executed BUY 1,000 shares (50.00% of initial) on 2024-01-01 from 2,000 shares (5.00%) to 2,500 shares (7.50%). Acquired: 500 shares (+2.50% change).").data

/-- The summary the code actually produces: the `replace(",", "")` on
lines 58, 61, 63 and 65 strips the thousands separators before the
template is filled. -/
def c3codeStr : List Char :=
  ("John Doe (CEO) executed BUY 1000 shares (50.00% of initial) on 2024-01-01 from 2000 shares (5.00%) to 2500 shares (7.50%). Acquired: 500 shares (+2.50% change).").data

/-- C3 counterexample: on the claim's own input the output description does
not contain the claimed summary, because the code strips the thousands
separators from every share count. -/
theorem c3_counterexample :
    containsSub c3claimStr (processOne e3).event_desc = false := by decide

/-- C3 (amended): same input, but the expected share counts carry no
thousands separators; the output description contains the summary, the
output `exer_date` is `2024-01-01` and `notify_date` is cleared. -/
theorem c3_amended :
    containsSub c3codeStr (processOne e3).event_desc = true ∧
      (processOne e3).exer_date = ("2024-01-01").data ∧
      (processOne e3).notify_date = [] := by
  refine ⟨?_, ?_, ?_⟩ <;> decide

/-! ### C9: what the segmentation loop preserves -/

/-- The buffer contents induced by a group of lines: each line stripped
and appended after a single space, exactly as lines 32-38 build the
buffer. -/
def joinSp (g : List (List Char)) : List Char :=
  g.foldl (fun buf l => buf ++ ' ' :: pyStrip l) []

/-- The grouping of lines induced by the buffer loop: a new group starts
at every anchor line that hits a non-empty group. -/
def segGroupsAux : List (List Char) → List (List Char) → List (List (List Char))
  | [], cur => if cur = [] then [] else [cur]
  | l :: ls, cur =>
    if anchorLineMatch l = true ∧ cur ≠ [] then cur :: segGroupsAux ls [l]
    else segGroupsAux ls (cur ++ [l])

theorem foldlJoinSp (g : List (List Char)) :
    ∀ buf, List.foldl (fun b l => b ++ ' ' :: pyStrip l) buf g = buf ++ joinSp g := by
  induction g with
  | nil => intro buf; simp [joinSp]
  | cons l g ih =>
    intro buf
    have h1 := ih (buf ++ ' ' :: pyStrip l)
    have h2 := ih ([] ++ ' ' :: pyStrip l)
    simp only [joinSp, List.foldl_cons] at h1 h2 ⊢
    rw [h1, h2]
    simp

theorem joinSp_snoc (g : List (List Char)) (l : List Char) :
    joinSp (g ++ [l]) = joinSp g ++ ' ' :: pyStrip l := by
  simp [joinSp, List.foldl_append]

theorem joinSp_ne_nil (g : List (List Char)) (h : g ≠ []) : joinSp g ≠ [] := by
  match g with
  | l :: g' =>
    show List.foldl _ _ _ ≠ []
    rw [List.foldl_cons, foldlJoinSp]
    simp

theorem segGroupsAux_flatten :
    ∀ (ls : List (List Char)) (cur : List (List Char)),
      (segGroupsAux ls cur).flatten = cur ++ ls := by
  intro ls
  induction ls with
  | nil =>
    intro cur
    by_cases h : cur = [] <;> simp [segGroupsAux, h]
  | cons l ls ih =>
    intro cur
    unfold segGroupsAux
    split
    · simp [ih]
    · simp [ih]

theorem segGroupsAux_ne_nil :
    ∀ (ls : List (List Char)) (cur : List (List Char)) (g : List (List Char)),
      g ∈ segGroupsAux ls cur → g ≠ [] := by
  intro ls
  induction ls with
  | nil =>
    intro cur g hg
    by_cases h : cur = []
    · simp [segGroupsAux, h] at hg
    · simp [segGroupsAux, h] at hg
      simpa [hg] using h
  | cons l ls ih =>
    intro cur g hg
    unfold segGroupsAux at hg
    split at hg
    · rcases List.mem_cons.1 hg with h | h
      · rename_i hcond
        simpa [h] using hcond.2
      · exact ih _ g h
    · exact ih _ g hg

theorem segLoop_eq_groups :
    ∀ (ls : List (List Char)) (cur : List (List Char)),
      segLoop ls (joinSp cur) =
        (segGroupsAux ls cur).map (fun g => pyStrip (joinSp g)) := by
  intro ls
  induction ls with
  | nil =>
    intro cur
    by_cases h : cur = []
    · simp [segLoop, segGroupsAux, h, joinSp]
    · have hj := joinSp_ne_nil cur h
      simp [segLoop, segGroupsAux, h, hj]
  | cons l ls ih =>
    intro cur
    by_cases hc : cur = []
    · subst hc
      have hj : joinSp ([] : List (List Char)) = [] := rfl
      rw [hj]
      unfold segLoop segGroupsAux
      simp only [ne_eq, not_true_eq_false, and_false, if_false, reduceCtorEq]
      have : ([] : List Char) ++ ' ' :: pyStrip l = joinSp [l] := rfl
      rw [this, ih [l]]
      have : ([] : List (List Char)) ++ [l] = [l] := rfl
      rw [this]
    · have hj := joinSp_ne_nil cur hc
      by_cases ha : anchorLineMatch l = true
      · unfold segLoop segGroupsAux
        rw [if_pos ⟨ha, hj⟩, if_pos ⟨ha, hc⟩]
        have hl : ([] : List Char) ++ ' ' :: pyStrip l = joinSp [l] := rfl
        rw [hl, ih [l], List.map_cons]
      · unfold segLoop segGroupsAux
        rw [if_neg (by simp [ha]), if_neg (by simp [ha])]
        rw [← joinSp_snoc, ih (cur ++ [l])]

/-- The input of the C9 counterexample: `"a\nb"`. -/
def c9text : List Char := 'a' :: '\n' :: 'b' :: []

/-- C9 counterexample: segmentation of `"a\nb"` yields the single block
`"a b"`, and no concatenation of the blocks can reconstruct the input:
the one block itself differs from the input, because the two lines were
stripped and rejoined with a single space. -/
theorem c9_counterexample :
    segBlocks c9text = [('a' :: ' ' :: 'b' :: [])] ∧
      ('a' :: ' ' :: 'b' :: []) ≠ c9text := by decide

/-- C9 (amended): the blocks are ordered as they occur in the source and
partition its lines — the stripped lines of the input split into
consecutive non-empty groups whose concatenation is exactly the line list
(no line lost, duplicated or reordered) — and each block is the strip of
its group's lines joined by single spaces.  Byte-level reconstruction with
the original separators fails in general (see the counterexample), since
each line is stripped and the line boundaries are replaced by spaces. -/
theorem c9_amended (text : List Char) :
    ∃ gs : List (List (List Char)),
      gs.flatten = pySplitlines (pyStrip text) ∧
      segBlocks text = gs.map (fun g => pyStrip (joinSp g)) ∧
      ∀ g ∈ gs, g ≠ [] := by
  refine ⟨segGroupsAux (pySplitlines (pyStrip text)) [], ?_, ?_, ?_⟩
  · simpa using segGroupsAux_flatten (pySplitlines (pyStrip text)) []
  · have h := segLoop_eq_groups (pySplitlines (pyStrip text)) []
    simpa [segBlocks, joinSp] using h
  · exact fun g hg => segGroupsAux_ne_nil _ _ g hg

/-! ### Characters of the extracted fields come from the entry

These inclusion lemmas drive the key structural fact that a rendered
summary contains no newline (its pieces come from a newline-free block or
from literals and number formatting), so the `split('\n')` of line 113
returns each rendered block line intact. -/

theorem pyStrip_subset (s : List Char) : pyStrip s ⊆ s := by
  intro c hc
  simp only [pyStrip, List.mem_reverse] at hc
  exact (List.dropWhile_sublist _).subset
    ((List.mem_reverse).1 ((List.dropWhile_sublist _).subset hc))

theorem dashAfter_subset (rest r : List Char) (h : dashAfter rest = some r) :
    r ⊆ rest := by
  unfold dashAfter at h
  split at h
  · have hr : r = pyStrip (rest.takeWhile (fun x => x ≠ '-')) := (Option.some.inj h).symm
    subst hr
    intro x hx
    exact (List.takeWhile_sublist _).subset (pyStrip_subset _ hx)
  · exact absurd h (by simp)

theorem scanDash_subset (a : List Char) :
    ∀ l r, scanDash a l = some r → r ⊆ l := by
  intro l
  induction l with
  | nil => intro r h; simp [scanDash] at h
  | cons c t ih =>
    intro r h
    unfold scanDash at h
    split at h
    · split at h
      · rename_i g hg
        have hr : r = g := (Option.some.inj h).symm
        subst hr
        exact (dashAfter_subset _ _ hg).trans (List.drop_subset _ _)
      · exact (ih r h).trans (List.subset_cons_self c t)
    · exact (ih r h).trans (List.subset_cons_self c t)

theorem runAt_subset (cls : Char → Bool) (r1 r : List Char)
    (h : runAt cls r1 = some r) : r ⊆ r1 := by
  unfold runAt at h
  split at h
  · have hr : r = pyStrip (r1.takeWhile cls) := (Option.some.inj h).symm
    subst hr
    intro x hx
    exact (List.takeWhile_sublist _).subset (pyStrip_subset _ hx)
  · exact absurd h (by simp)

theorem scanRun_subset (a : List Char) (cls : Char → Bool) :
    ∀ l r, scanRun a cls l = some r → r ⊆ l := by
  intro l
  induction l with
  | nil => intro r h; simp [scanRun] at h
  | cons c t ih =>
    intro r h
    unfold scanRun at h
    split at h
    · split at h
      · rename_i g hg
        have hr : r = g := (Option.some.inj h).symm
        subst hr
        have h1 := (runAt_subset _ _ _ hg).trans (List.dropWhile_sublist _).subset
        exact h1.trans (List.drop_subset _ _)
      · exact (ih r h).trans (List.subset_cons_self c t)
    · exact (ih r h).trans (List.subset_cons_self c t)

theorem pctAt_subset (s r : List Char) (h : pctAt s = some r) : r ⊆ '%' :: s := by
  unfold pctAt at h
  split at h
  · have hr : r = (s.takeWhile (fun x => x.isDigit || x = '.')) ++ ['%'] :=
      (Option.some.inj h).symm
    subst hr
    intro x hx
    rcases List.mem_append.1 hx with h1 | h1
    · exact List.mem_cons_of_mem _ ((List.takeWhile_sublist _).subset h1)
    · simp at h1
      simp [h1]
  · exact absurd h (by simp)

theorem pctFrom_subset :
    ∀ l r, pctFrom l = some r → r ⊆ '%' :: l := by
  intro l
  induction l with
  | nil => intro r h; simp [pctFrom] at h
  | cons c t ih =>
    intro r h
    unfold pctFrom at h
    split at h
    · split at h
      · rename_i g hg
        have hr : r = g := (Option.some.inj h).symm
        subst hr
        exact pctAt_subset _ _ hg
      · exact (ih r h).trans (List.cons_subset_cons _ (List.subset_cons_self c t))
    · exact (ih r h).trans (List.cons_subset_cons _ (List.subset_cons_self c t))

theorem scanPct_subset (a : List Char) :
    ∀ l r, scanPct a l = some r → r ⊆ '%' :: l := by
  intro l
  induction l with
  | nil => intro r h; simp [scanPct] at h
  | cons c t ih =>
    intro r h
    unfold scanPct at h
    split at h
    · split at h
      · rename_i g hg
        have hr : r = g := (Option.some.inj h).symm
        subst hr
        exact (pctFrom_subset _ _ hg).trans
          (List.cons_subset_cons _ (List.drop_subset _ _))
      · exact (ih r h).trans (List.cons_subset_cons _ (List.subset_cons_self c t))
    · exact (ih r h).trans (List.cons_subset_cons _ (List.subset_cons_self c t))

theorem dateShape_subset (l r : List Char) (h : dateShape l = some r) : r ⊆ l := by
  unfold dateShape at h
  split at h
  · have hr : r = l.take 10 := (Option.some.inj h).symm
    subst hr
    exact List.take_subset _ _
  · exact absurd h (by simp)

theorem scanExec_subset :
    ∀ l r, scanExec l = some r → r ⊆ l := by
  intro l
  induction l with
  | nil => intro r h; simp [scanExec] at h
  | cons c t ih =>
    intro r h
    unfold scanExec at h
    split at h
    · split at h
      · rename_i d hd
        have hr : r = d := (Option.some.inj h).symm
        subst hr
        have h1 := (dateShape_subset _ _ hd).trans (List.dropWhile_sublist _).subset
        exact h1.trans (List.drop_subset _ _)
      · exact (ih r h).trans (List.subset_cons_self c t)
    · exact (ih r h).trans (List.subset_cons_self c t)

/-! ### A rendered summary line contains no newline -/

theorem no_nl_append (a b : List Char) (ha : '\n' ∉ a) (hb : '\n' ∉ b) :
    '\n' ∉ a ++ b := by
  intro hm
  rcases List.mem_append.1 hm with h | h
  · exact ha h
  · exact hb h

theorem digitChar_ne_nl (n : Nat) : digitChar n ≠ '\n' := by
  unfold digitChar; split <;> decide

theorem natDigitsAux_no_nl :
    ∀ (fuel n : Nat) (acc : List Char), '\n' ∉ acc → '\n' ∉ natDigitsAux fuel n acc := by
  intro fuel
  induction fuel with
  | zero => intro n acc h; exact h
  | succ f ih =>
    intro n acc h
    unfold natDigitsAux
    split
    · intro hm
      rcases List.mem_cons.1 hm with h1 | h1
      · exact digitChar_ne_nl n h1.symm
      · exact h h1
    · refine ih _ _ ?_
      intro hm
      rcases List.mem_cons.1 hm with h1 | h1
      · exact digitChar_ne_nl _ h1.symm
      · exact h h1

theorem natDigits_no_nl (n : Nat) : '\n' ∉ natDigits n :=
  natDigitsAux_no_nl _ _ _ (by simp)

theorem pad2_no_nl (m : Nat) : '\n' ∉ pad2 m := by
  unfold pad2
  split
  · intro hm
    rcases List.mem_cons.1 hm with h | h
    · exact absurd h (by decide)
    · exact natDigits_no_nl m h
  · exact natDigits_no_nl m

theorem fmt2_no_nl (x : Frac) : '\n' ∉ fmt2 x := by
  unfold fmt2
  refine no_nl_append _ _ (no_nl_append _ _ ?_ (natDigits_no_nl _)) ?_
  · split <;> decide
  · intro hm
    rcases List.mem_cons.1 hm with h | h
    · exact absurd h (by decide)
    · exact pad2_no_nl _ h

theorem fmtSigned2_no_nl (x : Frac) : '\n' ∉ fmtSigned2 x := by
  unfold fmtSigned2
  refine no_nl_append _ _ (no_nl_append _ _ ?_ (natDigits_no_nl _)) ?_
  · split <;> decide
  · intro hm
    rcases List.mem_cons.1 hm with h | h
    · exact absurd h (by decide)
    · exact pad2_no_nl _ h

theorem pctDiffStr_no_nl (r : TransactionRecord) : '\n' ∉ pctDiffStr r := by
  unfold pctDiffStr
  split
  · exact no_nl_append _ _ (no_nl_append _ _ (by decide) (fmtSigned2_no_nl _)) (by decide)
  · simp

theorem registeredPctStr_no_nl (r : TransactionRecord) : '\n' ∉ registeredPctStr r := by
  unfold registeredPctStr
  split
  · split
    · simp
    · exact no_nl_append _ _ (no_nl_append _ _ (by decide) (fmt2_no_nl _)) (by decide)
  · simp

theorem upChar_ne_nl (c : Char) (h : c ≠ '\n') : upChar c ≠ '\n' := by
  unfold upChar
  split <;> first | decide | exact h

theorem pyUpper_no_nl (l : List Char) (h : '\n' ∉ l) : '\n' ∉ pyUpper l := by
  intro hm
  rcases List.mem_map.1 hm with ⟨c, hc, hup⟩
  exact upChar_ne_nl c (fun hcn => h (hcn ▸ hc)) hup

theorem getDash_no_nl (a entry : List Char) (h : '\n' ∉ entry) :
    '\n' ∉ getDash a entry := by
  unfold getDash
  cases hs : scanDash a entry with
  | none => simp
  | some r => exact fun hm => h (scanDash_subset a entry r hs hm)

theorem getRun_no_nl (a : List Char) (cls : Char → Bool) (entry : List Char)
    (h : '\n' ∉ entry) : '\n' ∉ getRun a cls entry := by
  unfold getRun
  cases hs : scanRun a cls entry with
  | none => simp
  | some r => exact fun hm => h (scanRun_subset a cls entry r hs hm)

theorem getPct_no_nl (a entry : List Char) (h : '\n' ∉ entry) :
    '\n' ∉ getPct a entry := by
  unfold getPct
  cases hs : scanPct a entry with
  | none => simp
  | some r =>
    intro hm
    rcases List.mem_cons.1 (scanPct_subset a entry r hs hm) with h1 | h1
    · exact absurd h1 (by decide)
    · exact h h1

theorem getExec_no_nl (entry : List Char) (h : '\n' ∉ entry) :
    '\n' ∉ getExec entry := by
  unfold getExec
  cases hs : scanExec entry with
  | none => simp
  | some r => exact fun hm => h (scanExec_subset entry r hs hm)

theorem removeCommas_no_nl (s : List Char) (h : '\n' ∉ s) :
    '\n' ∉ removeCommas s :=
  fun hm => h (List.mem_of_mem_filter hm)

theorem renderEntry_no_nl (entry : List Char) (h : '\n' ∉ entry) :
    '\n' ∉ renderEntry entry := by
  unfold renderEntry renderRecord extractFields
  refine no_nl_append _ _ ?_ (by decide)
  refine no_nl_append _ _ ?_ (pctDiffStr_no_nl _)
  refine no_nl_append _ _ ?_ (by decide)
  refine no_nl_append _ _ ?_ (removeCommas_no_nl _ (getRun_no_nl _ _ _ h))
  refine no_nl_append _ _ ?_ (by decide)
  refine no_nl_append _ _ ?_ (getPct_no_nl _ _ h)
  refine no_nl_append _ _ ?_ (by decide)
  refine no_nl_append _ _ ?_ (removeCommas_no_nl _ (getRun_no_nl _ _ _ h))
  refine no_nl_append _ _ ?_ (by decide)
  refine no_nl_append _ _ ?_ (getPct_no_nl _ _ h)
  refine no_nl_append _ _ ?_ (by decide)
  refine no_nl_append _ _ ?_ (removeCommas_no_nl _ (getRun_no_nl _ _ _ h))
  refine no_nl_append _ _ ?_ (by decide)
  refine no_nl_append _ _ ?_ (getExec_no_nl _ h)
  refine no_nl_append _ _ ?_ (by decide)
  refine no_nl_append _ _ ?_ (registeredPctStr_no_nl _)
  refine no_nl_append _ _ ?_ (by decide)
  refine no_nl_append _ _ ?_ (removeCommas_no_nl _ (getRun_no_nl _ _ _ h))
  refine no_nl_append _ _ ?_ (by decide)
  refine no_nl_append _ _ ?_ (pyUpper_no_nl _ (getDash_no_nl _ _ h))
  refine no_nl_append _ _ ?_ (by decide)
  refine no_nl_append _ _ ?_ (getDash_no_nl _ _ h)
  exact no_nl_append _ _ (getDash_no_nl _ _ h) (by decide)

/-! ### Blocks contain no newline; heads of the joined summary text -/

theorem splitOnNl_ne_nil : ∀ s : List Char, splitOnNl s ≠ [] := by
  intro s
  induction s with
  | nil => simp [splitOnNl]
  | cons c t ih =>
    unfold splitOnNl
    split
    · simp
    · cases hsp : splitOnNl t with
      | nil => exact absurd hsp ih
      | cons h0 r => simp

theorem splitOnNl_no_nl : ∀ (s : List Char), ∀ l ∈ splitOnNl s, '\n' ∉ l := by
  intro s
  induction s with
  | nil =>
    intro l hl
    simp [splitOnNl] at hl
    simp [hl]
  | cons c t ih =>
    intro l hl
    unfold splitOnNl at hl
    split at hl
    · rcases List.mem_cons.1 hl with h | h
      · simp [h]
      · exact ih l h
    · rename_i hc
      cases hsp : splitOnNl t with
      | nil => exact absurd hsp (splitOnNl_ne_nil t)
      | cons h0 r =>
        rw [hsp] at hl
        rcases List.mem_cons.1 hl with h | h
        · subst h
          intro hm
          rcases List.mem_cons.1 hm with h1 | h1
          · exact hc (h1.symm)
          · exact ih h0 (hsp ▸ List.mem_cons_self h0 r) h1
        · exact ih l (hsp ▸ List.mem_cons_of_mem h0 h)

theorem pySplitlines_no_nl (s : List Char) : ∀ l ∈ pySplitlines s, '\n' ∉ l := by
  intro l hl
  unfold pySplitlines at hl
  split at hl
  · exact splitOnNl_no_nl (normNl s) l ((List.dropLast_sublist _).subset hl)
  · exact splitOnNl_no_nl (normNl s) l hl

theorem pyStrip_no_nl (s : List Char) (h : '\n' ∉ s) : '\n' ∉ pyStrip s :=
  fun hm => h (pyStrip_subset s hm)

theorem segLoop_no_nl :
    ∀ (ls : List (List Char)) (buf : List Char),
      (∀ l ∈ ls, '\n' ∉ l) → '\n' ∉ buf → ∀ b ∈ segLoop ls buf, '\n' ∉ b := by
  intro ls
  induction ls with
  | nil =>
    intro buf _ hbuf b hb
    unfold segLoop at hb
    split at hb
    · simp at hb
    · rcases List.mem_cons.1 hb with h | h
      · exact h ▸ pyStrip_no_nl buf hbuf
      · simp at h
  | cons l ls ih =>
    intro buf hls hbuf b hb
    have hl : '\n' ∉ l := hls l (List.mem_cons_self l ls)
    have hls' : ∀ x ∈ ls, '\n' ∉ x := fun x hx => hls x (List.mem_cons_of_mem l hx)
    have hnew : '\n' ∉ ' ' :: pyStrip l := by
      intro hm
      rcases List.mem_cons.1 hm with h | h
      · exact absurd h (by decide)
      · exact pyStrip_no_nl l hl h
    unfold segLoop at hb
    split at hb
    · rcases List.mem_cons.1 hb with h | h
      · exact h ▸ pyStrip_no_nl buf hbuf
      · exact ih _ hls' (by simpa using hnew) b h
    · exact ih _ hls' (no_nl_append _ _ hbuf hnew) b hb

theorem segBlocks_no_nl (text : List Char) : ∀ b ∈ segBlocks text, '\n' ∉ b :=
  segLoop_no_nl _ [] (pySplitlines_no_nl (pyStrip text)) (by simp)

theorem splitOnNl_append (r0 : List Char) (t : List Char) (h0 : List Char)
    (rest : List (List Char)) (hnl : '\n' ∉ r0) (ht : splitOnNl t = h0 :: rest) :
    splitOnNl (r0 ++ t) = (r0 ++ h0) :: rest := by
  induction r0 with
  | nil => simpa using ht
  | cons c r0' ih =>
    have hc : c ≠ '\n' := fun hce => hnl (hce ▸ List.mem_cons_self c r0')
    have hnl' : '\n' ∉ r0' := fun hm => hnl (List.mem_cons_of_mem c hm)
    have ihr := ih hnl'
    show splitOnNl (c :: (r0' ++ t)) = (c :: (r0' ++ h0)) :: rest
    unfold splitOnNl
    rw [if_neg (by simpa using hc)]
    rw [ihr]

/-- The first summary line survives `split('\n')`, `strip` and the
non-emptiness filter of line 113: a rendered line has no newline and
strips to a non-empty string (it contains the letter of `executed`). -/
theorem renderRecord_mem_x (r : TransactionRecord) : 'x' ∈ renderRecord r := by
  unfold renderRecord
  have hx : 'x' ∈ (") executed ").data := by decide
  simp only [List.mem_append]
  tauto

theorem pyStrip_ne_nil_of_mem (s : List Char) (c : Char) (hc : c ∈ s)
    (hw : isWS c = false) : pyStrip s ≠ [] := by
  intro he
  have h1 : ((s.dropWhile isWS).reverse.dropWhile isWS) = [] := by
    have := congrArg List.reverse he
    simpa [pyStrip] using this
  have h2 : ∀ x ∈ (s.dropWhile isWS).reverse, isWS x := by
    intro x hx
    exact (List.dropWhile_eq_nil_iff).1 h1 x hx
  have h3 : ∀ x ∈ s.dropWhile isWS, isWS x := by
    intro x hx
    exact h2 x ((List.mem_reverse).2 hx)
  by_cases hmem : c ∈ s.dropWhile isWS
  · rw [h3 c hmem] at hw
    exact absurd hw (by simp)
  · have hsplit : s.takeWhile isWS ++ s.dropWhile isWS = s := List.takeWhile_append_dropWhile isWS s
    have : c ∈ s.takeWhile isWS := by
      rcases List.mem_append.1 (hsplit ▸ hc) with h | h
      · exact h
      · exact absurd h hmem
    rw [List.mem_takeWhile_imp this] at hw
    exact absurd hw (by simp)

theorem renderEntry_strip_ne_nil (entry : List Char) :
    pyStrip (renderEntry entry) ≠ [] :=
  pyStrip_ne_nil_of_mem _ 'x' (renderRecord_mem_x _) (by decide)

/-- If the Financial-Statement filter leaves a first block `f0`, the
chosen summary-line list starts with the stripped rendering of `f0`. -/
theorem summaryLines_head (e : Event α) (f0 : List Char) (fs : List (List Char))
    (hf : (segBlocks (enhance e)).filter (fun b => ! containsSub finStmt b) = f0 :: fs) :
    ∃ tl, summaryLinesOf e = pyStrip (renderEntry f0) :: tl := by
  have hf0blk : f0 ∈ segBlocks (enhance e) :=
    List.mem_of_mem_filter (hf ▸ List.mem_cons_self f0 fs)
  have hf0nl : '\n' ∉ f0 := segBlocks_no_nl _ f0 hf0blk
  have hrnl : '\n' ∉ renderEntry f0 := renderEntry_no_nl f0 hf0nl
  have hjoin : ∃ t2, splitOnNl (preprocess_events_texts (enhance e)) =
      (renderEntry f0) :: t2 := by
    unfold preprocess_events_texts
    rw [hf]
    cases hfs2 : fs.map renderEntry with
    | nil =>
      refine ⟨[], ?_⟩
      have : joinNl [renderEntry f0] = renderEntry f0 := rfl
      rw [List.map_cons, hfs2, this]
      have h2 := splitOnNl_append (renderEntry f0) [] [] [] hrnl (by simp [splitOnNl])
      simpa using h2
    | cons s2 t2 =>
      rw [List.map_cons, hfs2]
      have hjn : joinNl (renderEntry f0 :: s2 :: t2) =
          renderEntry f0 ++ '\n' :: joinNl (s2 :: t2) := rfl
      rw [hjn]
      have hsp : splitOnNl ('\n' :: joinNl (s2 :: t2)) =
          [] :: splitOnNl (joinNl (s2 :: t2)) := rfl
      cases hsp2 : splitOnNl (joinNl (s2 :: t2)) with
      | nil => exact absurd hsp2 (splitOnNl_ne_nil _)
      | cons u v =>
        rw [hsp2] at hsp
        refine ⟨u :: v, ?_⟩
        have := splitOnNl_append (renderEntry f0) ('\n' :: joinNl (s2 :: t2))
          [] (u :: v) hrnl hsp
        simpa using this
  obtain ⟨t2, ht2⟩ := hjoin
  refine ⟨(t2.map pyStrip).filter (fun l => l ≠ []), ?_⟩
  unfold summaryLinesOf
  rw [ht2, List.map_cons, List.filter_cons]
  rw [if_pos (by simpa using renderEntry_strip_ne_nil f0)]

/-! ### C10: the all-Financial-Statement fallback -/

/-- C10: when the anchor phrase is present, the fallback to the original
description fires exactly when every segmented block contains
`"Financial Statement"` (any surviving block renders a non-empty template
line); in the fallback the description is kept verbatim while
`notify_date` is still cleared and `exer_date` is still replaced by the
first `on YYYY-MM-DD` date found in the original description when one
exists — not a full passthrough. -/
theorem c10_financial_statement_fallback (α : Type) (e : Event α)
    (hanchor : containsSub anchorPhrase e.event_desc = true) :
    ((∀ b ∈ segBlocks (enhance e), containsSub finStmt b = true) →
      (processOne e).event_desc = e.event_desc ∧
      (processOne e).notify_date = [] ∧
      (processOne e).exer_date = (searchOnDate e.event_desc).getD e.exer_date) ∧
    ((∃ b ∈ segBlocks (enhance e), containsSub finStmt b = false) →
      summaryLinesOf e ≠ []) := by
  constructor
  · intro hall
    have hfilter : (segBlocks (enhance e)).filter
        (fun b => ! containsSub finStmt b) = [] := by
      rw [List.filter_eq_nil_iff]
      intro b hb
      simp [hall b hb]
    have hsl : summaryLinesOf e = [] := by
      unfold summaryLinesOf preprocess_events_texts
      rw [hfilter]
      rfl
    simp [processOne, hanchor, hsl]
  · rintro ⟨b, hbmem, hbfs⟩
    cases hf : (segBlocks (enhance e)).filter (fun x => ! containsSub finStmt x) with
    | nil =>
      have hmem : b ∈ (segBlocks (enhance e)).filter
          (fun x => ! containsSub finStmt x) :=
        List.mem_filter.2 ⟨hbmem, by simp [hbfs]⟩
      rw [hf] at hmem
      simp at hmem
    | cons f0 fs =>
      obtain ⟨tl, htl⟩ := summaryLines_head e f0 fs hf
      rw [htl]
      simp

/-- The C10 witness input: a transaction event whose only block contains
`"Financial Statement"` and whose description carries an
`on YYYY-MM-DD` date. -/
def e10 : Event Unit :=
  ⟨("- Name of person/ corporation that conducts the transfer: X Financial Statement on 2024-05-05").data,
    ("nd").data, ("ed").data, ()⟩

theorem c10_witness :
    (processOne e10).event_desc = e10.event_desc ∧
    (processOne e10).notify_date = [] ∧
    (processOne e10).exer_date = (searchOnDate e10.event_desc).getD e10.exer_date :=
  (c10_financial_statement_fallback Unit e10 (by decide)).1 (by decide)

/-! ### C5: the preamble block is not dropped -/

/-- The C5 input: non-anchor text precedes the anchor line. -/
def e5 : Event Unit :=
  ⟨("intro\n- Name of person/ corporation that conducts the transfer: John Doe - Current position: CEO -").data,
    [], [], ()⟩

/-- The second (anchor) block that the segmentation of `e5` produces. -/
def e5block1 : List Char :=
  ("- Name of person/ corporation that conducts the transfer: John Doe - Current position: CEO - Notify: , Exec:").data

/-- C5 counterexample: for `e5` the chosen description is the rendering of
the preamble block (all fields empty, a non-empty template line), not the
summary of the first anchor block — the preamble is not dropped. -/
theorem c5_counterexample :
    (processOne e5).event_desc =
      ("() executed   shares on  from  shares () to  shares (). Acquired:  shares.").data ∧
    (processOne e5).event_desc ≠ pyStrip (renderEntry e5block1) := by
  constructor <;> decide

/-- C5 (amended): for every transaction event, the chosen `event_desc` is
the stripped rendering of the *first* segmented block not containing
`"Financial Statement"` — for an event with a preamble that is the
preamble itself, whose all-empty-field rendering is still a non-empty
line; it is dropped by nothing. -/
theorem c5_amended (α : Type) (e : Event α) (b0 : List Char) (bs : List (List Char))
    (hanchor : containsSub anchorPhrase e.event_desc = true)
    (hb : segBlocks (enhance e) = b0 :: bs)
    (hfs : containsSub finStmt b0 = false) :
    (processOne e).event_desc = pyStrip (renderEntry b0) := by
  have hf : (segBlocks (enhance e)).filter (fun x => ! containsSub finStmt x) =
      b0 :: bs.filter (fun x => ! containsSub finStmt x) := by
    rw [hb, List.filter_cons, if_pos (by simp [hfs])]
  obtain ⟨tl, htl⟩ := summaryLines_head e b0 _ hf
  simp [processOne, hanchor, htl]

theorem c5_witness :
    (processOne e5).event_desc = pyStrip (renderEntry (("intro").data)) :=
  c5_amended Unit e5 (("intro").data) [e5block1] (by decide) (by decide) (by decide)

/-! ### C8: idempotence fails in general, holds without a surviving anchor -/

/-- The C8 counterexample input: the extracted `name` field itself contains
the anchor phrase, so the rendered summary contains the anchor phrase and
the second pass re-processes it. -/
def e8 : Event Unit :=
  ⟨("- Name of person/ corporation that conducts the transfer: A Name of person/ corporation that conducts the transfer: B -").data,
    [], [], ()⟩

/-- C8 counterexample: a rendered summary can contain the anchor phrase
(here inside the extracted name), so the second pass rewrites the record
again and the orchestrator is not idempotent. -/
theorem c8_counterexample :
    process_events_for_display (process_events_for_display [e8]) ≠
      process_events_for_display [e8] := by decide

theorem map_id_of_mem {β : Type} {f : β → β} :
    ∀ l : List β, (∀ x ∈ l, f x = x) → l.map f = l
  | [], _ => rfl
  | x :: t, h => by
    rw [List.map_cons, h x (List.mem_cons_self x t),
      map_id_of_mem t (fun y hy => h y (List.mem_cons_of_mem x hy))]

/-- C8 (amended): reprocessing is a no-op on every output none of whose
descriptions contains the anchor phrase (each record then passes through
unchanged); rendered summaries usually lack the anchor phrase, but one can
contain it when an extracted field embeds it, and idempotence fails there
(see the counterexample). -/
theorem c8_amended (α : Type) (es : List (Event α))
    (h : ∀ e ∈ process_events_for_display es,
      containsSub anchorPhrase e.event_desc = false) :
    process_events_for_display (process_events_for_display es) =
      process_events_for_display es := by
  rw [pefd_eq_map (process_events_for_display es)]
  exact map_id_of_mem _ (fun e he => processOne_not_anchor e (h e he))

/-- The C8 witness input: a passthrough record. -/
def e8w : Event Unit := ⟨("quarterly report").data, ("n").data, ("d").data, ()⟩

theorem c8_witness :
    process_events_for_display (process_events_for_display [e8w]) =
      process_events_for_display [e8w] :=
  c8_amended Unit [e8w] (by decide)
